import Mathlib

/-!
Verification of the language-generation (LG) templating subsystem of
botbuilder-js: locale bucketing of resources, locale fallback resolution,
resolution of the import graph, template evaluation, and the generators.

The implementation files of this subsystem are not present in the checkout;
only its test suite (libraries/botbuilder-dialogs-adaptive/tests/LGGenerator.test.js)
is.  The definitions below are therefore modelled from the specification's
own algorithm descriptions, and are kept consistent with the behaviour the
test suite asserts (bucket contents, dispatch-table routing, import
fallback, error cases).
-/

set_option autoImplicit false

deriving instance DecidableEq for Except

namespace LG

/-! ## String helpers (character-level, kernel-reducible) -/

/-- Modelled from the spec: locale normalisation trims surrounding whitespace.
Character-level trim of leading and trailing whitespace. -/
def trimChars (l : List Char) : List Char :=
  ((l.dropWhile Char.isWhitespace).reverse.dropWhile Char.isWhitespace).reverse

/-- Modelled from the spec (4.2): normalise a requested locale by trimming
whitespace and lower-casing. -/
def normLocale (s : String) : String :=
  String.mk ((trimChars s.data).map Char.toLower)

/-- Whether a locale string contains a hyphen (language-REGION form). -/
def hasHyphen (s : String) : Bool :=
  s.data.any (fun c => c = '-')

/-- The primary language subtag: the text before the first hyphen. -/
def primaryTag (s : String) : String :=
  String.mk (s.data.takeWhile (fun c => ¬ c = '-'))

/-! ## Filename convention (spec 3, 4.1) -/

/-- Split a character list on the dot character. -/
def splitDots : List Char → List (List Char)
  | [] => [[]]
  | c :: rest =>
    let r := splitDots rest
    if c = '.' then [] :: r
    else
      match r with
      | [] => [[c]]
      | seg :: segs => (c :: seg) :: segs

/-- Join character-list segments with dots (inverse of splitDots). -/
def joinDots : List (List Char) → List Char
  | [] => []
  | [seg] => seg
  | seg :: rest => seg ++ '.' :: joinDots rest

/-- Modelled from the spec (4.1): a locale-tag shape is letters, digits and
hyphens, at least 2 characters. -/
def isLocaleShaped (l : List Char) : Bool :=
  2 ≤ l.length && l.all (fun c => c.isAlpha || c.isDigit || c = '-')

/-- Modelled from the spec (4.1, LanguageResourceLoader.parseLGFileName is not
in the checkout): derive (baseName, locale) from a resource id.
An id of shape base.locale.ext with a locale-shaped middle segment yields
that base and the locale lower-cased; base.ext yields locale empty; an id
with no extension is treated as locale empty with the full id as base. -/
def parseLGFileName (id : String) : String × String :=
  match (splitDots id.data).reverse with
  | [] => (id, "")
  | [_] => (id, "")
  | [_ext, base] => (String.mk base, "")
  | _ext :: loc :: baseSegs =>
    if isLocaleShaped loc then
      (String.mk (joinDots baseSegs.reverse), String.mk (loc.map Char.toLower))
    else
      (String.mk (joinDots ((loc :: baseSegs).reverse)), "")

/-! ## Data model (spec 3) -/

/-- A template body segment: literal text, or an invocation of a named
template (the embedded-expression evaluator is an external collaborator; the
template-invocation callback it is given is what this model captures). -/
inductive Seg where
  | lit : String → Seg
  | call : String → Seg
  deriving DecidableEq, Repr

/-- A parsed template: a name and a body of segments.  Formal parameters are
not needed by any claim under verification and the expression grammar is out
of scope (spec 1). -/
structure Template where
  name : String
  body : List Seg
  deriving DecidableEq, Repr

/-- A resource after parsing: its id, its parsed templates, and the base
names of its declared imports.  locale and baseName are derived from the id
(spec 3). -/
structure Resource where
  id : String
  templates : List Template
  imports : List String
  deriving DecidableEq, Repr

/-- The locale of a resource, derived from its id by the filename convention. -/
def Resource.locale (r : Resource) : String := (parseLGFileName r.id).2

/-- The base name of a resource, derived from its id by the filename
convention. -/
def Resource.baseName (r : Resource) : String := (parseLGFileName r.id).1

/-- A locale bucket map: association list from locale key to the ordered
resources grouped under that locale. -/
abbrev LocaleBucket := List (String × List Resource)

/-- The resources grouped under one locale key (empty when the key is
absent). -/
def bucketGet (b : LocaleBucket) (loc : String) : List Resource :=
  match b.find? (fun p => p.1 == loc) with
  | some p => p.2
  | none => []

/-- The locale keys of a bucket map. -/
def bucketKeys (b : LocaleBucket) : List String := b.map (fun p => p.1)

/-- All resources appearing in any bucket, in bucket order. -/
def allRes (b : LocaleBucket) : List Resource :=
  b.foldr (fun p acc => p.2 ++ acc) []

/-! ## Locale Fallback Resolver (spec 4.2) -/

/-- Step 1 of the fallback algorithm: the normalised request when
available. -/
def fbStep1 (norm : String) (available : List String) : List String :=
  if available.contains norm then [norm] else []

/-- Step 2 of the fallback algorithm: the primary subtag of a hyphenated
request when available and not already yielded by step 1. -/
def fbStep2 (norm p : String) (available : List String) : List String :=
  if hasHyphen norm && available.contains p && !((fbStep1 norm available).contains p) then [p]
  else []

/-- Steps 1 and 2 of the fallback algorithm together. -/
def resolveSteps (norm p : String) (available : List String) : List String :=
  fbStep1 norm available ++ fbStep2 norm p available

/-- Modelled from the spec (4.2, the resolver implementation is not in the
checkout): candidate locales in preference order for a requested locale
against the available ones.  Step 1 yields the normalised request when
available; step 2 yields the primary subtag of a hyphenated request when
available and not already yielded; the empty locale is always the final
candidate, exactly once. -/
def resolve (requested : String) (available : List String) : List String :=
  ((resolveSteps (normLocale requested) (primaryTag (normLocale requested)) available).filter
      (fun l => ¬ l = "")) ++ [""]

/-- The exact-locale part of the per-locale suffix chain. -/
def chStep1 (norm : String) : List String :=
  if norm = "" then [] else [norm]

/-- The language-only part of the per-locale suffix chain. -/
def chStep2 (norm p : String) : List String :=
  if hasHyphen norm && !((chStep1 norm).contains p) then [p] else []

/-- The non-neutral part of the per-locale suffix chain the bucketer walks. -/
def chainSteps (norm p : String) : List String :=
  chStep1 norm ++ chStep2 norm p

/-- Modelled from the spec (4.1/4.2): the per-locale suffix chain the
bucketer walks: the normalised locale itself, then the primary language
subtag of a hyphenated locale, then the locale-neutral suffix. -/
def localeChain (loc : String) : List String :=
  ((chainSteps (normLocale loc) (primaryTag (normLocale loc))).filter
      (fun l => ¬ l = "")) ++ [""]

/-! ## Locale Bucketer (spec 4.1) -/

/-- Modelled from the spec (4.1, LanguageResourceLoader.groupByLocale is not
in the checkout; behaviour fixed by the bucket assertions of
LGGenerator.test.js lines 45-91): one pass of the bucketer for one chain
suffix: append, in source order, each resource of that locale whose base
name has not been claimed yet. -/
def pickLayer (src : List Resource) (c : String) (seen : List String) : List Resource :=
  match src with
  | [] => []
  | r :: rest =>
    if r.locale == c && !(seen.contains r.baseName) then
      r :: pickLayer rest c (seen ++ [r.baseName])
    else
      pickLayer rest c seen

/-- Walk the whole suffix chain, accumulating the claimed base names. -/
def pickLayers (src : List Resource) (chain : List String) (seen : List String) : List Resource :=
  match chain with
  | [] => []
  | c :: rest =>
    let layer := pickLayer src c seen
    layer ++ pickLayers src rest (seen ++ layer.map (fun r => r.baseName))

/-- The bucket for one locale key: the best resource per base name found
along that locale's suffix chain, most specific first. -/
def bucketFor (loc : String) (src : List Resource) : List Resource :=
  pickLayers src (localeChain loc) []

/-- Modelled from the spec (4.1): group resources into buckets, one per
locale key of the policy. -/
def groupByLocale (locales : List String) (src : List Resource) : LocaleBucket :=
  locales.map (fun l => (l, bucketFor l src))

/-! ## Error kinds (spec 7) -/

/-- Generate-time errors (spec 7).  outOfFuel is internal to the embedding:
evaluation carries a fuel bound, and the development proves it is never
exhausted (evaluation always terminates with a real result). -/
inductive LGError where
  | templateNotFound : String → LGError
  | importNotFound : String → LGError
  | circularTemplateReference : LGError
  | noGeneratorForLocale : LGError
  | outOfFuel : LGError
  deriving DecidableEq, Repr

/-! ## Import Graph Resolver (spec 4.3) -/

/-- Modelled from the spec (4.3, the resolver implementation is not in the
checkout): scan the fallback chain in order and return the first resource in
that locale's bucket whose base name matches; fail with importNotFound when
no locale yields a match.  The source resource of the spec's signature is
not consulted by the algorithm and is omitted. -/
def resolveImport (bucket : LocaleBucket) (targetBaseName : String) : List String → Except LGError Resource
  | [] => .error (.importNotFound targetBaseName)
  | loc :: rest =>
    match (bucketGet bucket loc).find? (fun r => r.baseName == targetBaseName) with
    | some r => .ok r
    | none => resolveImport bucket targetBaseName rest

/-! ## Template lookup and evaluation (spec 4.4-4.6) -/

/-- Fuel bound for template lookup: one more than the resources a lookup
can ever visit. -/
def ftFuel (bucket : LocaleBucket) : Nat := (allRes bucket).length + 2

/-- Modelled from the spec (4.5, the evaluator implementation is not in the
checkout): look up a template name starting at a resource; when absent,
resolve each declared import in declaration order via the fallback chain and
recurse into the first import graph that defines the name.  A resource
already on the current lookup path is skipped (it cannot define the name;
revisiting it would loop).  Fuel is internal; the development proves it
never runs out. -/
def findTemplate (bucket : LocaleBucket) (chain : List String) :
    Nat → List String → Resource → String → Except LGError (Resource × Template)
  | 0, _, _, _ => .error .outOfFuel
  | fuel + 1, visited, r, n =>
    if r.id ∈ visited then .error (.templateNotFound n)
    else
      match r.templates.find? (fun t => t.name == n) with
      | some t => .ok (r, t)
      | none =>
        r.imports.foldr
          (fun tgt acc =>
            match resolveImport bucket tgt chain with
            | .error e => .error e
            | .ok r2 =>
              match findTemplate bucket chain fuel (visited ++ [r.id]) r2 n with
              | .error (.templateNotFound _) => acc
              | other => other)
          (.error (.templateNotFound n))

/-- Modelled from the spec (4.5): evaluate body segments left to right;
literal text passes through; a template invocation looks the name up from
the current resource, detects revisited (resource, template) pairs as
circular references, and recurses into the found template's body in that
resource's scope, with the same fallback chain. -/
def evalSegs (bucket : LocaleBucket) (chain : List String) :
    Nat → List (String × String) → Resource → List Seg → Except LGError String
  | 0, _, _, _ => .error .outOfFuel
  | fuel + 1, vt, r, segs =>
    segs.foldr
      (fun seg acc =>
        match seg with
        | .lit s =>
          match acc with
          | .ok s2 => .ok (s ++ s2)
          | e => e
        | .call n =>
          match findTemplate bucket chain (ftFuel bucket) [] r n with
          | .error e => .error e
          | .ok (r2, t) =>
            if (r2.id, t.name) ∈ vt then .error .circularTemplateReference
            else
              match evalSegs bucket chain fuel (vt ++ [(r2.id, t.name)]) r2 t.body with
              | .error e => .error e
              | .ok s1 =>
                match acc with
                | .error e => .error e
                | .ok s2 => .ok (s1 ++ s2))
      (.ok "")

/-- The (resource id, template name) pairs of one resource. -/
def pairsOf (r : Resource) : List (String × String) :=
  r.templates.map (fun t => (r.id, t.name))

/-- All (resource id, template name) pairs evaluation starting from a root
resource over a bucket can ever enter. -/
def pairsU (root : Resource) (bucket : LocaleBucket) : List (String × String) :=
  pairsOf root ++ (allRes bucket).foldr (fun r acc => pairsOf r ++ acc) []

/-- Fuel bound for evaluation: one more than the call depth the visited-pair
set allows. -/
def evalFuel (bucket : LocaleBucket) (root : Resource) : Nat :=
  (pairsU root bucket).length + 2

/-! ## Generator surfaces (spec 4.6-4.8) -/

/-- A Single-Resource Generator: one resource plus the fallback chain fixed
at construction (spec 4.6). -/
structure SingleGen where
  res : Resource
  chain : List String
  deriving DecidableEq, Repr

/-- Modelled from the spec (4.6): construct the generator for a resource,
deriving its chain from the resource's own locale against the bucket it is
built with. -/
def mkGen (bucket : LocaleBucket) (r : Resource) : SingleGen :=
  ⟨r, resolve r.locale (bucketKeys bucket)⟩

/-- Run a single-resource generator on a template reference body. -/
def genRun (bucket : LocaleBucket) (g : SingleGen) (segs : List Seg) : Except LGError String :=
  evalSegs bucket g.chain (evalFuel bucket g.res) [] g.res segs

/-- Modelled from the spec (4.6, TemplateEngineLanguageGenerator.generate is
not in the checkout): generate from one resource against a bucket. -/
def srgGenerate (bucket : LocaleBucket) (r : Resource) (segs : List Seg) : Except LGError String :=
  genRun bucket (mkGen bucket r) segs

/-- Modelled from the spec (4.7, MultiLanguageGenerator.generate is not in
the checkout): route a requested locale to the first bound generator along
the fallback chain computed against the bindings' configured locale keys. -/
def mlgSelect {α : Type} (bindings : List (String × α)) (requested : String) : Except LGError α :=
  match (resolve requested (bindings.map (fun p => p.1))).findSome?
      (fun l => (bindings.find? (fun p => p.1 == l)).map (fun p => p.2)) with
  | some g => .ok g
  | none => .error .noGeneratorForLocale

/-! ## Concrete resource world

A small concrete resource set mirroring the lg test folder of
LGGenerator.test.js: locale-neutral a, b, c with en-US overrides of a and b
and an en override of c; a imports b and c. -/

/-- Concrete resource a.lg of the test scenario. -/
def resA : Resource := ⟨"a.lg", [⟨"templatea", [.lit "from a.lg"]⟩], ["b", "c"]⟩

/-- Concrete resource a.en-US.lg of the test scenario. -/
def resAEnUS : Resource := ⟨"a.en-US.lg", [⟨"templatea", [.lit "from a.en-us.lg"]⟩], ["b", "c"]⟩

/-- Concrete resource b.lg of the test scenario.  It also defines greeting,
which the en-US override b.en-US.lg does not: under the en-US fallback
chain the import of b shadows b.lg, so greeting becomes unreachable there
while remaining defined in the neutral graph (test lines 115-119 and
144-147). -/
def resB : Resource :=
  ⟨"b.lg", [⟨"templateb", [.lit "from b.lg"]⟩, ⟨"greeting", [.lit "hi"]⟩], []⟩

/-- Concrete resource b.en-US.lg of the test scenario. -/
def resBEnUS : Resource := ⟨"b.en-US.lg", [⟨"templateb", [.lit "from b.en-us.lg"]⟩], []⟩

/-- Concrete resource c.lg of the test scenario. -/
def resC : Resource := ⟨"c.lg", [⟨"templatec", [.lit "from c.lg"]⟩], []⟩

/-- Concrete resource c.en.lg of the test scenario. -/
def resCEn : Resource := ⟨"c.en.lg", [⟨"templatec", [.lit "from c.en.lg"]⟩], []⟩

/-- The concrete resource collection. -/
def lgResources : List Resource := [resA, resAEnUS, resB, resBEnUS, resC, resCEn]

/-- The concrete bucket map over the observed locales. -/
def lgBucket : LocaleBucket := groupByLocale ["", "en", "en-us", "fr"] lgResources

/-- The dispatch table of the multi-locale generator scenario: six bindings
keyed by locale, identified here by the labels of the spec's table. -/
def c1Bindings : List (String × String) :=
  [("", "D"), ("de", "G"), ("en", "E"), ("en-us", "US"), ("en-gb", "GB"), ("fr", "F")]

/-! ## Generic list helpers -/

theorem tail_getLast (l : List String) :
    ((l.filter (fun x => ¬ x = "")) ++ [""]).getLast? = some "" :=
  List.getLast?_concat _

theorem tail_count (l : List String) :
    ((l.filter (fun x => ¬ x = "")) ++ [""]).count "" = 1 := by
  rw [List.count_append]
  have h0 : (l.filter (fun x => ¬ x = "")).count "" = 0 := by
    refine List.count_eq_zero.mpr ?_
    intro hmem
    have hp := List.of_mem_filter hmem
    simp at hp
  rw [h0]
  decide

theorem tail_nodup (l : List String) (h : l.Nodup) :
    ((l.filter (fun x => ¬ x = "")) ++ [""]).Nodup := by
  rw [List.nodup_append]
  refine ⟨h.filter _, List.nodup_singleton "", ?_⟩
  intro x hx hx1
  have hp := List.of_mem_filter hx
  simp at hx1
  subst hx1
  simp at hp

theorem resolveSteps_nodup (norm p : String) (A : List String) :
    (resolveSteps norm p A).Nodup := by
  have hp : p ∈ fbStep2 norm p A → p ∉ fbStep1 norm A := by
    intro hmem hpin
    unfold fbStep2 at hmem
    split at hmem
    · rename_i hcond
      have hc : (fbStep1 norm A).contains p = true := by simpa using hpin
      rw [hc] at hcond
      simp at hcond
    · simp at hmem
  have h1 : (fbStep1 norm A).Nodup := by
    unfold fbStep1; split <;> simp
  have h2 : (fbStep2 norm p A).Nodup := by
    unfold fbStep2; split <;> simp
  rw [resolveSteps, List.nodup_append]
  refine ⟨h1, h2, ?_⟩
  intro x hx1 hx2
  have hxp : x = p := by
    unfold fbStep2 at hx2
    split at hx2
    · simpa using hx2
    · simp at hx2
  subst hxp
  exact hp hx2 hx1

theorem chainSteps_nodup (norm p : String) : (chainSteps norm p).Nodup := by
  have hp : p ∈ chStep2 norm p → p ∉ chStep1 norm := by
    intro hmem hpin
    unfold chStep2 at hmem
    split at hmem
    · rename_i hcond
      have hc : (chStep1 norm).contains p = true := by simpa using hpin
      rw [hc] at hcond
      simp at hcond
    · simp at hmem
  have h1 : (chStep1 norm).Nodup := by
    unfold chStep1; split <;> simp
  have h2 : (chStep2 norm p).Nodup := by
    unfold chStep2; split <;> simp
  rw [chainSteps, List.nodup_append]
  refine ⟨h1, h2, ?_⟩
  intro x hx1 hx2
  have hxp : x = p := by
    unfold chStep2 at hx2
    split at hx2
    · simpa using hx2
    · simp at hx2
  subst hxp
  exact hp hx2 hx1

/-- The per-locale suffix chain never repeats a suffix. -/
theorem localeChain_nodup (loc : String) : (localeChain loc).Nodup :=
  tail_nodup _ (chainSteps_nodup _ _)

/-- Decomposition characterisation of List.find?. -/
theorem find?_eq_some_split {α : Type} (p : α → Bool) (l : List α) (x : α) :
    l.find? p = some x ↔
      ∃ l1 l2, l = l1 ++ x :: l2 ∧ p x = true ∧ ∀ y ∈ l1, p y = false := by
  induction l with
  | nil => simp
  | cons a rest ih =>
    by_cases hpa : p a = true
    · rw [List.find?_cons_of_pos _ hpa]
      constructor
      · intro hax
        have : a = x := by injection hax
        subst this
        exact ⟨[], rest, rfl, hpa, by simp⟩
      · rintro ⟨l1, l2, hdec, hpx, hfail⟩
        cases l1 with
        | nil =>
          simp at hdec
          simp [hdec.1]
        | cons b l1 =>
          have hb : b = a := by
            have := congrArg (fun t => t.head?) hdec
            simpa using this.symm
          subst hb
          have := hfail b (by simp)
          rw [this] at hpa
          cases hpa
    · rw [List.find?_cons_of_neg _ hpa]
      rw [ih]
      constructor
      · rintro ⟨l1, l2, hdec, hpx, hfail⟩
        refine ⟨a :: l1, l2, by simp [hdec], hpx, ?_⟩
        intro y hy
        rcases List.mem_cons.mp hy with h | h
        · subst h; exact eq_false_of_ne_true hpa
        · exact hfail y h
      · rintro ⟨l1, l2, hdec, hpx, hfail⟩
        cases l1 with
        | nil =>
          simp at hdec
          rw [hdec.1] at hpa
          rw [hpx] at hpa
          cases hpa rfl
        | cons b l1 =>
          have hb : b = a := by
            have := congrArg (fun t => t.head?) hdec
            simpa using this.symm
          subst hb
          have htl : rest = l1 ++ x :: l2 := by
            have := congrArg (fun t => t.tail) hdec
            simpa using this
          exact ⟨l1, l2, htl, hpx, fun y hy => hfail y (List.mem_cons_of_mem _ hy)⟩

/-! ## Bucketer lemmas -/

theorem pickLayer_sub (c : String) :
    ∀ (src : List Resource) (seen : List String) (x : Resource),
      x ∈ pickLayer src c seen → x ∈ src ∧ x.locale = c ∧ x.baseName ∉ seen := by
  intro src
  induction src with
  | nil =>
    intro seen x hx
    simp [pickLayer] at hx
  | cons r rest ih =>
    intro seen x hx
    rw [pickLayer] at hx
    split at hx
    · rename_i hcond
      simp at hcond
      rcases List.mem_cons.mp hx with hx | hx
      · subst hx
        exact ⟨List.mem_cons_self _ _, hcond.1, hcond.2⟩
      · obtain ⟨hmem, hloc, hseen⟩ := ih _ x hx
        refine ⟨List.mem_cons_of_mem _ hmem, hloc, ?_⟩
        intro hs
        exact hseen (List.mem_append_left _ hs)
    · obtain ⟨hmem, hloc, hseen⟩ := ih _ x hx
      exact ⟨List.mem_cons_of_mem _ hmem, hloc, hseen⟩

theorem pickLayer_bases_nodup (c : String) :
    ∀ (src : List Resource) (seen : List String),
      ((pickLayer src c seen).map (fun r => r.baseName)).Nodup := by
  intro src
  induction src with
  | nil =>
    intro seen
    simp [pickLayer]
  | cons r rest ih =>
    intro seen
    rw [pickLayer]
    split
    · rw [List.map_cons, List.nodup_cons]
      refine ⟨?_, ih _⟩
      intro hin
      obtain ⟨x, hx, hxb⟩ := List.mem_map.mp hin
      have hxs := (pickLayer_sub c rest _ x hx).2.2
      exact hxs (List.mem_append_right _ (by simp [hxb]))
    · exact ih _

theorem pickLayer_exists (c : String) :
    ∀ (src : List Resource) (seen : List String) (b : String),
      (∃ r ∈ src, r.locale = c ∧ r.baseName = b ∧ b ∉ seen) →
      ∃ x ∈ pickLayer src c seen, x.baseName = b := by
  intro src
  induction src with
  | nil =>
    rintro seen b ⟨r, hr, -⟩
    simp at hr
  | cons r rest ih =>
    rintro seen b ⟨r0, hr0, hloc, hbase, hseen⟩
    rw [pickLayer]
    by_cases hcond : (r.locale == c && !(seen.contains r.baseName)) = true
    · rw [if_pos hcond]
      by_cases hrb : r.baseName = b
      · exact ⟨r, List.mem_cons_self _ _, hrb⟩
      · have hr0r : r0 ∈ rest := by
          rcases List.mem_cons.mp hr0 with h | h
          · subst h
            exact absurd hbase hrb
          · exact h
        obtain ⟨x, hx, hxb⟩ := ih (seen ++ [r.baseName]) b
          ⟨r0, hr0r, hloc, hbase, by
            intro hmem
            rcases List.mem_append.mp hmem with h | h
            · exact hseen h
            · simp at h
              exact hrb h.symm⟩
        exact ⟨x, List.mem_cons_of_mem _ hx, hxb⟩
    · rw [if_neg hcond]
      have hr0r : r0 ∈ rest := by
        rcases List.mem_cons.mp hr0 with h | h
        · subst h
          exfalso
          apply hcond
          have h1 : (r0.locale == c) = true := by simp [hloc]
          have h2 : (seen.contains r0.baseName) = false := by
            rw [hbase]
            by_contra hcontra
            have : seen.contains b = true := by
              cases hsc : seen.contains b
              · exact absurd hsc hcontra
              · rfl
            exact hseen (by simpa using this)
          rw [h1, h2]
          rfl
        · exact h
      exact ih seen b ⟨r0, hr0r, hloc, hbase, hseen⟩

theorem pickLayers_sub :
    ∀ (chain : List String) (src : List Resource) (seen : List String) (x : Resource),
      x ∈ pickLayers src chain seen → x ∈ src ∧ x.locale ∈ chain ∧ x.baseName ∉ seen := by
  intro chain
  induction chain with
  | nil =>
    intro src seen x hx
    simp [pickLayers] at hx
  | cons c rest ih =>
    intro src seen x hx
    rw [pickLayers] at hx
    rcases List.mem_append.mp hx with hx | hx
    · obtain ⟨hmem, hloc, hseen⟩ := pickLayer_sub c src seen x hx
      exact ⟨hmem, by simp [hloc], hseen⟩
    · obtain ⟨hmem, hloc, hseen⟩ := ih src _ x hx
      refine ⟨hmem, List.mem_cons_of_mem _ hloc, ?_⟩
      intro hs
      exact hseen (List.mem_append_left _ hs)

theorem pickLayers_bases_nodup :
    ∀ (chain : List String) (src : List Resource) (seen : List String),
      ((pickLayers src chain seen).map (fun r => r.baseName)).Nodup := by
  intro chain
  induction chain with
  | nil =>
    intro src seen
    simp [pickLayers]
  | cons c rest ih =>
    intro src seen
    rw [pickLayers, List.map_append, List.nodup_append]
    refine ⟨pickLayer_bases_nodup c src seen, ih src _, ?_⟩
    intro b hb1 hb2
    obtain ⟨x, hx, hxb⟩ := List.mem_map.mp hb2
    have hxs := (pickLayers_sub rest src _ x hx).2.2
    apply hxs
    apply List.mem_append_right
    rw [hxb]
    exact hb1

theorem pickLayers_exists :
    ∀ (chain : List String) (src : List Resource) (seen : List String) (b : String),
      (∃ r ∈ src, r.baseName = b ∧ r.locale ∈ chain ∧ b ∉ seen) →
      ∃ x ∈ pickLayers src chain seen, x.baseName = b := by
  intro chain
  induction chain with
  | nil =>
    rintro src seen b ⟨r, -, -, hloc, -⟩
    simp at hloc
  | cons c rest ih =>
    rintro src seen b ⟨r, hr, hbase, hloc, hseen⟩
    rw [pickLayers]
    rcases List.mem_cons.mp hloc with hloc | hloc
    · obtain ⟨x, hx, hxb⟩ := pickLayer_exists c src seen b ⟨r, hr, hloc, hbase, hseen⟩
      exact ⟨x, List.mem_append_left _ hx, hxb⟩
    · by_cases hb : b ∈ (pickLayer src c seen).map (fun r => r.baseName)
      · obtain ⟨x, hx, hxb⟩ := List.mem_map.mp hb
        exact ⟨x, List.mem_append_left _ hx, hxb⟩
      · obtain ⟨x, hx, hxb⟩ := ih src (seen ++ (pickLayer src c seen).map (fun r => r.baseName)) b
          ⟨r, hr, hbase, hloc, by
            intro hmem
            rcases List.mem_append.mp hmem with h | h
            · exact hseen h
            · exact hb h⟩
        exact ⟨x, List.mem_append_right _ hx, hxb⟩

theorem pickLayers_first :
    ∀ (chain : List String) (src : List Resource) (seen : List String) (x : Resource),
      x ∈ pickLayers src chain seen →
      ∃ c1 c c2, chain = c1 ++ c :: c2 ∧ x.locale = c ∧
        ∀ c2x ∈ c1, ∀ r ∈ src, r.baseName = x.baseName → ¬ r.locale = c2x := by
  intro chain
  induction chain with
  | nil =>
    intro src seen x hx
    simp [pickLayers] at hx
  | cons c rest ih =>
    intro src seen x hx
    rw [pickLayers] at hx
    rcases List.mem_append.mp hx with hx | hx
    · exact ⟨[], c, rest, rfl, (pickLayer_sub c src seen x hx).2.1, by simp⟩
    · obtain ⟨c1, cx, c2, hdec, hloc, hnone⟩ := ih src _ x hx
      refine ⟨c :: c1, cx, c2, by simp [hdec], hloc, ?_⟩
      intro cy hcy r hrmem hrb hrl
      rcases List.mem_cons.mp hcy with hcy | hcy
      · subst hcy
        have hxs := (pickLayers_sub rest src _ x hx).2.2
        have hxnotseen : x.baseName ∉ seen := fun hs => hxs (List.mem_append_left _ hs)
        obtain ⟨y, hy, hyb⟩ := pickLayer_exists cy src seen x.baseName
          ⟨r, hrmem, hrl, hrb, hxnotseen⟩
        apply hxs
        apply List.mem_append_right
        rw [← hyb]
        exact List.mem_map_of_mem _ hy
      · exact hnone cy hcy r hrmem hrb hrl

theorem pickLayer_skip (c : String) :
    ∀ (pre : List Resource) (src : List Resource) (seen : List String),
      (∀ x ∈ pre, x.baseName ∈ seen) →
      pickLayer (pre ++ src) c seen = pickLayer src c seen := by
  intro pre
  induction pre with
  | nil =>
    intro src seen _
    rfl
  | cons r pre ih =>
    intro src seen h
    show pickLayer (r :: (pre ++ src)) c seen = pickLayer src c seen
    rw [pickLayer]
    rw [if_neg]
    · exact ih src seen (fun x hx => h x (List.mem_cons_of_mem _ hx))
    · intro hcond
      simp at hcond
      exact hcond.2 (h r (List.mem_cons_self _ _))

theorem pickLayers_skip :
    ∀ (chain : List String) (pre : List Resource) (src : List Resource) (seen : List String),
      (∀ x ∈ pre, x.baseName ∈ seen) →
      pickLayers (pre ++ src) chain seen = pickLayers src chain seen := by
  intro chain
  induction chain with
  | nil =>
    intro pre src seen _
    rfl
  | cons c rest ih =>
    intro pre src seen h
    show pickLayer (pre ++ src) c seen ++ _ = _
    rw [pickLayer_skip c pre src seen h]
    show _ = pickLayer src c seen ++ _
    congr 1
    apply ih
    intro x hx
    exact List.mem_append_left _ (h x hx)

theorem pickLayer_left (c : String) :
    ∀ (L R : List Resource) (seen : List String),
      (∀ x ∈ L, x.locale = c) →
      ((L.map (fun r => r.baseName)).Nodup) →
      (∀ x ∈ L, x.baseName ∉ seen) →
      pickLayer (L ++ R) c seen = L ++ pickLayer R c (seen ++ L.map (fun r => r.baseName)) := by
  intro L
  induction L with
  | nil =>
    intro R seen _ _ _
    simp
  | cons r L ih =>
    intro R seen hloc hnd hseen
    show pickLayer (r :: (L ++ R)) c seen = _
    rw [pickLayer]
    rw [if_pos]
    · have hnd2 : (r.baseName :: L.map (fun r => r.baseName)).Nodup := by simpa using hnd
      have hLnd := (List.nodup_cons.mp hnd2).2
      have hLhead := (List.nodup_cons.mp hnd2).1
      rw [ih R (seen ++ [r.baseName]) (fun x hx => hloc x (List.mem_cons_of_mem _ hx)) hLnd
        (by
          intro x hx hmem
          rcases List.mem_append.mp hmem with h | h
          · exact hseen x (List.mem_cons_of_mem _ hx) h
          · simp at h
            exact hLhead (h ▸ List.mem_map_of_mem _ hx))]
      simp
    · have h1 : (r.locale == c) = true := by simp [hloc r (List.mem_cons_self _ _)]
      have h2 : (seen.contains r.baseName) = false := by
        by_contra hcontra
        have : seen.contains r.baseName = true := by
          cases hsc : seen.contains r.baseName
          · exact absurd hsc hcontra
          · rfl
        exact hseen r (List.mem_cons_self _ _) (by simpa using this)
      rw [h1, h2]
      rfl

theorem pickLayer_none (c : String) :
    ∀ (R : List Resource) (seen : List String),
      (∀ x ∈ R, ¬ x.locale = c) → pickLayer R c seen = [] := by
  intro R
  induction R with
  | nil =>
    intro seen _
    rfl
  | cons r R ih =>
    intro seen h
    rw [pickLayer]
    rw [if_neg]
    · exact ih seen (fun x hx => h x (List.mem_cons_of_mem _ hx))
    · intro hcond
      simp at hcond
      exact h r (List.mem_cons_self _ _) hcond.1

/-- Re-grouping an already grouped bucket for the same locale chain leaves
it unchanged. -/
theorem pickLayers_idem :
    ∀ (chain : List String), chain.Nodup → ∀ (src : List Resource) (seen : List String),
      pickLayers (pickLayers src chain seen) chain seen = pickLayers src chain seen := by
  intro chain
  induction chain with
  | nil =>
    intro _ src seen
    rfl
  | cons c rest ih =>
    intro hnd src seen
    have hrestnd := (List.nodup_cons.mp hnd).2
    have hcnot := (List.nodup_cons.mp hnd).1
    have hRHS : pickLayers src (c :: rest) seen =
        pickLayer src c seen ++
          pickLayers src rest (seen ++ (pickLayer src c seen).map (fun r => r.baseName)) := rfl
    rw [hRHS]
    have hLloc : ∀ x ∈ pickLayer src c seen, x.locale = c :=
      fun x hx => (pickLayer_sub c src seen x hx).2.1
    have hLnd := pickLayer_bases_nodup c src seen
    have hLseen : ∀ x ∈ pickLayer src c seen, x.baseName ∉ seen :=
      fun x hx => (pickLayer_sub c src seen x hx).2.2
    have hRloc : ∀ x ∈ pickLayers src rest
        (seen ++ (pickLayer src c seen).map (fun r => r.baseName)), ¬ x.locale = c := by
      intro x hx hxc
      have := (pickLayers_sub rest src _ x hx).2.1
      rw [hxc] at this
      exact hcnot this
    have h1 : pickLayer (pickLayer src c seen ++
        pickLayers src rest (seen ++ (pickLayer src c seen).map (fun r => r.baseName))) c seen =
        pickLayer src c seen := by
      rw [pickLayer_left c _ _ seen hLloc hLnd hLseen, pickLayer_none c _ _ hRloc, List.append_nil]
    show pickLayer _ c seen ++ _ = _
    rw [h1]
    congr 1
    rw [pickLayers_skip rest (pickLayer src c seen) _ _
      (fun x hx => List.mem_append_right _ (List.mem_map_of_mem _ hx))]
    exact ih hrestnd src _

/-! ## Claim theorems -/

/-- C1: with bindings for locales "", "de", "en", "en-us", "en-gb" and "fr",
the multi-locale generator routes requested locale "en-US" to the "en-us"
binding, "en-GB" to "en-gb", "en" to "en", "" to the default binding, and
the unknown hyphen-free locale "foo" straight to the default binding, the
language-only step being skipped (the fallback chain for "foo" is just the
empty locale). -/
theorem c1_multilocale_dispatch :
    mlgSelect c1Bindings "en-US" = .ok "US" ∧
    mlgSelect c1Bindings "en-GB" = .ok "GB" ∧
    mlgSelect c1Bindings "en" = .ok "E" ∧
    mlgSelect c1Bindings "" = .ok "D" ∧
    mlgSelect c1Bindings "foo" = .ok "D" ∧
    resolve "foo" (c1Bindings.map (fun p => p.1)) = [""] := by
  decide

/-- C2: for every requested locale string and every available-locale list,
resolve is total and returns a sequence with no duplicates that ends with
the empty locale exactly once; an empty request, an unrecognized request
(neither the normalised string nor, for hyphenated requests, its primary
subtag is available), or an availability of only the empty locale each give
exactly the singleton empty-locale chain. -/
theorem c2_resolve_invariants (L : String) (A : List String) :
    (resolve L A).Nodup ∧
    (resolve L A).getLast? = some "" ∧
    (resolve L A).count "" = 1 ∧
    (L = "" → resolve L A = [""]) ∧
    (A.contains (normLocale L) = false →
      (hasHyphen (normLocale L) = false ∨ A.contains (primaryTag (normLocale L)) = false) →
      resolve L A = [""]) ∧
    ((∀ a ∈ A, a = "") → resolve L A = [""])
    := by
  refine ⟨tail_nodup _ (resolveSteps_nodup _ _ _), tail_getLast _, tail_count _, ?_, ?_, ?_⟩
  · intro hL
    subst hL
    have hfilter : ∀ x ∈ resolveSteps (normLocale "") (primaryTag (normLocale "")) A,
        x = "" := by
      intro x hx
      rcases List.mem_append.mp hx with hx | hx
      · unfold fbStep1 at hx
        split at hx
        · simpa using hx
        · simp at hx
      · unfold fbStep2 at hx
        split at hx
        · rename_i hcond
          have hh : hasHyphen (normLocale "") = false := rfl
          rw [hh] at hcond
          simp at hcond
        · simp at hx
    have hnil : (resolveSteps (normLocale "") (primaryTag (normLocale "")) A).filter
        (fun l => ¬ l = "") = [] := by
      rw [List.filter_eq_nil_iff]
      intro a ha
      simp [hfilter a ha]
    rw [resolve, hnil]
    rfl
  · intro h1 h2
    have hs1 : fbStep1 (normLocale L) A = [] := by
      unfold fbStep1
      rw [h1]
      rfl
    have hs2 : fbStep2 (normLocale L) (primaryTag (normLocale L)) A = [] := by
      unfold fbStep2
      rcases h2 with h2 | h2
      · rw [h2]
        rfl
      · rw [h2]
        simp
    rw [resolve, resolveSteps, hs1, hs2]
    rfl
  · intro hA
    have hfilter : ∀ x ∈ resolveSteps (normLocale L) (primaryTag (normLocale L)) A,
        x = "" := by
      intro x hx
      rcases List.mem_append.mp hx with hx | hx
      · unfold fbStep1 at hx
        split at hx
        · rename_i hcond
          have hm : normLocale L ∈ A := by simpa using hcond
          have hx2 : x = normLocale L := by simpa using hx
          rw [hx2]
          exact hA _ hm
        · simp at hx
      · unfold fbStep2 at hx
        split at hx
        · rename_i hcond
          have hm : primaryTag (normLocale L) ∈ A := by
            have := (Bool.and_eq_true _ _).mp hcond
            have := (Bool.and_eq_true _ _).mp this.1
            simpa using this.2
          have hx2 : x = primaryTag (normLocale L) := by simpa using hx
          rw [hx2]
          exact hA _ hm
        · simp at hx
    have hnil : (resolveSteps (normLocale L) (primaryTag (normLocale L)) A).filter
        (fun l => ¬ l = "") = [] := by
      rw [List.filter_eq_nil_iff]
      intro a ha
      simp [hfilter a ha]
    rw [resolve, hnil]
    rfl

/-- Witness for C2 at a concrete input. -/
theorem c2_witness : resolve "" ["en"] = [""] :=
  (c2_resolve_invariants "" ["en"]).2.2.2.1 rfl

/-- The only error resolveImport can produce names its target. -/
theorem resolveImport_notFound_iff (bucket : LocaleBucket) (b : String) :
    ∀ chain : List String,
      resolveImport bucket b chain = .error (.importNotFound b) ↔
        ∀ loc ∈ chain, ∀ r ∈ bucketGet bucket loc, ¬ r.baseName = b := by
  intro chain
  induction chain with
  | nil => simp [resolveImport]
  | cons loc rest ih =>
    rw [resolveImport]
    cases hfind : (bucketGet bucket loc).find? (fun r => r.baseName == b) with
    | some r =>
      simp only [hfind]
      constructor
      · intro h
        cases h
      · intro h
        have hr := h loc (by simp) r (List.mem_of_find?_eq_some hfind)
        have hb := List.find?_some hfind
        simp at hb
        exact absurd hb hr
    | none =>
      simp only [hfind]
      rw [ih]
      constructor
      · intro h
        intro l hl r hr
        rcases List.mem_cons.mp hl with hl | hl
        · subst hl
          have := List.find?_eq_none.mp hfind r hr
          simpa using this
        · exact h l hl r hr
      · intro h l hl r hr
        exact h l (List.mem_cons_of_mem _ hl) r hr

/-- Success characterisation of resolveImport: the first chain locale whose
bucket holds a matching base name yields the first such resource of that
bucket. -/
theorem resolveImport_ok_iff (bucket : LocaleBucket) (b : String) :
    ∀ (chain : List String) (res : Resource),
      resolveImport bucket b chain = .ok res ↔
        ∃ c1 loc c2, chain = c1 ++ loc :: c2 ∧
          (∀ l ∈ c1, ∀ r ∈ bucketGet bucket l, ¬ r.baseName = b) ∧
          ∃ q1 q2, bucketGet bucket loc = q1 ++ res :: q2 ∧ res.baseName = b ∧
            ∀ r ∈ q1, ¬ r.baseName = b := by
  intro chain
  induction chain with
  | nil =>
    intro res
    simp only [resolveImport]
    constructor
    · intro h
      cases h
    · rintro ⟨c1, loc, c2, hdec, -⟩
      exact absurd (congrArg List.length hdec) (by simp; omega)
  | cons loc0 rest ih =>
    intro res
    rw [resolveImport]
    cases hfind : (bucketGet bucket loc0).find? (fun r => r.baseName == b) with
    | some r =>
      simp only [hfind]
      constructor
      · intro h
        have hres : r = res := by injection h
        subst hres
        obtain ⟨q1, q2, hq, hpred, hfail⟩ := (find?_eq_some_split _ _ _).mp hfind
        refine ⟨[], loc0, rest, by simp, by simp, q1, q2, hq, by simpa using hpred, ?_⟩
        intro y hy
        have := hfail y hy
        simpa using this
      · rintro ⟨c1, loc, c2, hdec, hearlier, q1, q2, hq, hbase, hfail⟩
        cases c1 with
        | nil =>
          simp at hdec
          obtain ⟨hl, hr⟩ := hdec
          subst hl
          have : (bucketGet bucket loc0).find? (fun r => r.baseName == b) = some res := by
            rw [find?_eq_some_split]
            exact ⟨q1, q2, hq, by simpa using hbase, fun y hy => by simpa using hfail y hy⟩
          rw [hfind] at this
          injection this with h2
          rw [h2]
        | cons l c1 =>
          have hl : l = loc0 := by
            have := congrArg (fun t => t.head?) hdec
            simpa using this.symm
          subst hl
          have hrmem := List.mem_of_find?_eq_some hfind
          have hrb := List.find?_some hfind
          simp at hrb
          exact absurd hrb (hearlier l (by simp) r hrmem)
    | none =>
      simp only [hfind]
      rw [ih res]
      have hnone : ∀ r ∈ bucketGet bucket loc0, ¬ r.baseName = b := by
        intro r hr
        have := List.find?_eq_none.mp hfind r hr
        simpa using this
      constructor
      · rintro ⟨c1, loc, c2, hdec, hearlier, rest2⟩
        refine ⟨loc0 :: c1, loc, c2, by simp [hdec], ?_, rest2⟩
        intro l hl
        rcases List.mem_cons.mp hl with hl | hl
        · subst hl
          exact hnone
        · exact hearlier l hl
      · rintro ⟨c1, loc, c2, hdec, hearlier, q1, q2, hq, hbase, hfail⟩
        cases c1 with
        | nil =>
          simp at hdec
          obtain ⟨hl, hr⟩ := hdec
          subst hl
          have hmem : res ∈ bucketGet bucket loc0 := by
            rw [hq]
            simp
          exact absurd hbase (hnone res hmem)
        | cons l c1 =>
          have hl : l = loc0 := by
            have := congrArg (fun t => t.head?) hdec
            simpa using this.symm
          subst hl
          have htl : rest = c1 ++ loc :: c2 := by
            have := congrArg (fun t => t.tail) hdec
            simpa using this
          exact ⟨c1, loc, c2, htl, fun l2 hl2 => hearlier l2 (List.mem_cons_of_mem _ hl2),
            q1, q2, hq, hbase, hfail⟩

/-- C3: resolveImport scans the fallback chain in order and returns the
first matching resource of the first locale whose bucket has a resource of
the target base name; it fails with importNotFound exactly when no chain
locale yields a match.  In particular, over the concrete resource world,
an import of base name b resolves to the resource of id b.en-US.lg under
the en-US fallback chain and to b.lg under the locale-neutral chain, and the
generators over a.en-US.lg and a.lg render the corresponding bodies. -/
theorem c3_import_resolution :
    (∀ (bucket : LocaleBucket) (b : String) (chain : List String),
      (resolveImport bucket b chain = .error (.importNotFound b) ↔
        ∀ loc ∈ chain, ∀ r ∈ bucketGet bucket loc, ¬ r.baseName = b) ∧
      (∀ res : Resource, resolveImport bucket b chain = .ok res ↔
        ∃ c1 loc c2, chain = c1 ++ loc :: c2 ∧
          (∀ l ∈ c1, ∀ r ∈ bucketGet bucket l, ¬ r.baseName = b) ∧
          ∃ q1 q2, bucketGet bucket loc = q1 ++ res :: q2 ∧ res.baseName = b ∧
            ∀ r ∈ q1, ¬ r.baseName = b)) ∧
    resolveImport lgBucket "b" (resolve "en-US" (bucketKeys lgBucket)) = .ok resBEnUS ∧
    resolveImport lgBucket "b" (resolve "" (bucketKeys lgBucket)) = .ok resB ∧
    srgGenerate lgBucket resAEnUS [Seg.call "templateb"] = .ok "from b.en-us.lg" ∧
    srgGenerate lgBucket resA [Seg.call "templateb"] = .ok "from b.lg" := by
  refine ⟨fun bucket b chain =>
    ⟨resolveImport_notFound_iff bucket b chain, resolveImport_ok_iff bucket b chain⟩,
    ?_, ?_, ?_, ?_⟩ <;> decide

/-- Witness for C3 at a concrete input: the empty chain fails with the
importNotFound error. -/
theorem c3_witness : resolveImport ([] : LocaleBucket) "x" [] = .error (.importNotFound "x") :=
  ((c3_import_resolution.1 [] "x" []).1).mpr (by simp)

/-- C4: with a.lg rendering "from a.lg" and the override a.en-US.lg
rendering "from a.en-us.lg", the resource occupying base name a's position
in the en-us bucket is the override and its generator renders the override
body, while the fr bucket and the neutral bucket select a.lg, whose
generator renders the neutral body. -/
theorem c4_locale_override :
    (bucketGet lgBucket "en-us").find? (fun r => r.baseName == "a") = some resAEnUS ∧
    srgGenerate lgBucket resAEnUS [Seg.call "templatea"] = .ok "from a.en-us.lg" ∧
    (bucketGet lgBucket "fr").find? (fun r => r.baseName == "a") = some resA ∧
    (bucketGet lgBucket "").find? (fun r => r.baseName == "a") = some resA ∧
    srgGenerate lgBucket resA [Seg.call "templatea"] = .ok "from a.lg" := by
  decide

/-- Position of a suffix in a chain (first occurrence; length when absent). -/
def idxOf : List String → String → Nat
  | [], _ => 0
  | c :: rest, s => if c = s then 0 else idxOf rest s + 1

theorem idxOf_append_le (c : String) (c2 : List String) :
    ∀ c1 : List String, idxOf (c1 ++ c :: c2) c ≤ c1.length := by
  intro c1
  induction c1 with
  | nil =>
    show idxOf (c :: c2) c ≤ 0
    rw [idxOf, if_pos rfl]
  | cons a c1 ih =>
    show idxOf (a :: (c1 ++ c :: c2)) c ≤ c1.length + 1
    rw [idxOf]
    split
    · omega
    · omega

theorem idxOf_ge_of_not_mem (y : String) (rest : List String) :
    ∀ c1 : List String, y ∉ c1 → c1.length ≤ idxOf (c1 ++ rest) y := by
  intro c1
  induction c1 with
  | nil =>
    intro _
    exact Nat.zero_le _
  | cons a c1 ih =>
    intro h
    show c1.length + 1 ≤ idxOf (a :: (c1 ++ rest)) y
    rw [idxOf]
    rw [if_neg (fun he => h (by rw [← he]; exact List.mem_cons_self _ _))]
    have := ih (fun hm => h (List.mem_cons_of_mem _ hm))
    omega

/-- Concrete resource d.fr.lg, used to exhibit a bucket key on whose
fallback chain no resource of base name d lies. -/
def resDFr : Resource := ⟨"d.fr.lg", [], []⟩

/-- C6 counterexample: in the concrete world, resource a.lg (locale-neutral)
appears both in the neutral bucket and in the en bucket produced by
groupByLocale, so a resource does not appear in exactly one bucket keyed by
its own locale. -/
theorem c6_counterexample :
    resA.locale = "" ∧
    resA ∈ bucketGet lgBucket "" ∧
    resA ∈ bucketGet lgBucket "en" ∧
    ¬ ("" : String) = "en" := by
  decide

/-- C6 amended: a resource placed in a bucket belongs to the grouped
collection, its locale lies on that bucket's fallback suffix chain, and it
is the unique representative of its base name within that bucket; a
resource may appear in several buckets (one per locale whose chain selects
it), and fallback order is still computed separately by the resolver. -/
theorem c6_amended (loc : String) (src : List Resource) (r : Resource)
    (hr : r ∈ bucketFor loc src) :
    r ∈ src ∧ r.locale ∈ localeChain loc ∧
      ∀ r2 ∈ bucketFor loc src, r2.baseName = r.baseName → r2 = r := by
  obtain ⟨hmem, hloc, -⟩ := pickLayers_sub (localeChain loc) src [] r hr
  refine ⟨hmem, hloc, ?_⟩
  intro r2 hr2 hb
  exact List.inj_on_of_nodup_map (pickLayers_bases_nodup (localeChain loc) src []) hr2 hr hb

/-- Witness for C6 amended at a concrete input. -/
theorem c6_witness :
    resA ∈ lgResources ∧ resA.locale ∈ localeChain "en" ∧
      ∀ r2 ∈ bucketFor "en" lgResources, r2.baseName = resA.baseName → r2 = resA :=
  c6_amended "en" lgResources resA (by decide)

/-- C7: grouping a second time is idempotent: re-grouping each bucket of a
bucket map for its own locale key yields exactly the same bucket map, keys
and ordered per-key resource lists included. -/
theorem c7_group_idempotent (locales : List String) (src : List Resource) :
    (groupByLocale locales src).map (fun q => (q.1, bucketFor q.1 q.2)) =
      groupByLocale locales src := by
  unfold groupByLocale
  rw [List.map_map]
  apply List.map_congr_left
  intro l _
  show (l, bucketFor l (bucketFor l src)) = (l, bucketFor l src)
  have : bucketFor l (bucketFor l src) = bucketFor l src := by
    unfold bucketFor
    exact pickLayers_idem (localeChain l) (localeChain_nodup l) src []
  rw [this]

/-- C10 counterexample: with the single resource d.fr.lg grouped under the
locale key en, base name d has a resource but the en bucket holds no
resource of that base name at all, because no d resource's locale lies on
the en fallback chain. -/
theorem c10_counterexample :
    (∃ r ∈ [resDFr], r.baseName = "d") ∧
    groupByLocale ["en"] [resDFr] = [("en", [])] ∧
    ((bucketFor "en" [resDFr]).filter (fun r => r.baseName == "d")).length = 0 := by
  refine ⟨⟨resDFr, by decide, by decide⟩, by decide, by decide⟩

/-- C10 amended: for every locale key and every base name having at least
one resource whose locale lies on that key's fallback chain, the bucket
contains exactly one resource of that base name, namely the one whose
locale sits earliest (most specific: exact before language-only before
neutral) on the chain among all such resources. -/
theorem c10_bucket_representative (loc : String) (src : List Resource) (b : String)
    (h : ∃ r ∈ src, r.baseName = b ∧ r.locale ∈ localeChain loc) :
    (∃ x ∈ bucketFor loc src, x.baseName = b) ∧
    (∀ x ∈ bucketFor loc src, x.baseName = b →
      ∀ y ∈ bucketFor loc src, y.baseName = b → x = y) ∧
    (∀ x ∈ bucketFor loc src, x.baseName = b →
      x ∈ src ∧ x.locale ∈ localeChain loc ∧
        ∀ r ∈ src, r.baseName = b → r.locale ∈ localeChain loc →
          idxOf (localeChain loc) x.locale ≤ idxOf (localeChain loc) r.locale) := by
  obtain ⟨r0, hr0, hb0, hl0⟩ := h
  refine ⟨?_, ?_, ?_⟩
  · exact pickLayers_exists (localeChain loc) src [] b ⟨r0, hr0, hb0, hl0, by simp⟩
  · intro x hx hxb y hy hyb
    exact List.inj_on_of_nodup_map (pickLayers_bases_nodup (localeChain loc) src []) hx hy
      (by rw [hxb, hyb])
  · intro x hx hxb
    obtain ⟨hmem, hloc, -⟩ := pickLayers_sub (localeChain loc) src [] x hx
    refine ⟨hmem, hloc, ?_⟩
    intro r hrmem hrb hrl
    obtain ⟨c1, c, c2, hdec, hxl, hnone⟩ := pickLayers_first (localeChain loc) src [] x hx
    have hrnot : r.locale ∉ c1 := by
      intro hin
      exact hnone r.locale hin r hrmem (by rw [hrb, hxb]) rfl
    rw [hdec, hxl]
    calc idxOf (c1 ++ c :: c2) c ≤ c1.length := idxOf_append_le c c2 c1
      _ ≤ idxOf (c1 ++ c :: c2) r.locale := idxOf_ge_of_not_mem r.locale (c :: c2) c1 hrnot

/-- Witness for C10 amended at a concrete input. -/
theorem c10_witness :
    ∃ x ∈ bucketFor "en-us" lgResources, x.baseName = "b" :=
  (c10_bucket_representative "en-us" lgResources "b"
    ⟨resBEnUS, by decide, by decide, by decide⟩).1

/-! ## Evaluation-layer lemmas -/

theorem mem_allRes_of (b : LocaleBucket) :
    ∀ p ∈ b, ∀ x ∈ p.2, x ∈ allRes b := by
  induction b with
  | nil =>
    intro p hp
    simp at hp
  | cons q b ih =>
    intro p hp x hx
    have hall : allRes (q :: b) = q.2 ++ allRes b := rfl
    rw [hall]
    rcases List.mem_cons.mp hp with hp | hp
    · subst hp
      exact List.mem_append_left _ hx
    · exact List.mem_append_right _ (ih p hp x hx)

theorem bucketGet_sub_allRes (b : LocaleBucket) (loc : String) :
    ∀ x ∈ bucketGet b loc, x ∈ allRes b := by
  intro x hx
  unfold bucketGet at hx
  split at hx
  · rename_i p hfind
    exact mem_allRes_of b p (List.mem_of_find?_eq_some hfind) x hx
  · simp at hx

theorem resolveImport_mem (bucket : LocaleBucket) (t : String) :
    ∀ (chain : List String) (r : Resource),
      resolveImport bucket t chain = .ok r → r ∈ allRes bucket := by
  intro chain
  induction chain with
  | nil =>
    intro r h
    cases h
  | cons loc rest ih =>
    intro r h
    rw [resolveImport] at h
    split at h
    · rename_i r2 hfind
      injection h with h2
      subst h2
      exact bucketGet_sub_allRes bucket loc r2 (List.mem_of_find?_eq_some hfind)
    · exact ih r h

theorem resolveImport_error (bucket : LocaleBucket) (t : String) :
    ∀ (chain : List String) (e : LGError),
      resolveImport bucket t chain = .error e → e = .importNotFound t := by
  intro chain
  induction chain with
  | nil =>
    intro e h
    injection h with h2
    exact h2.symm
  | cons loc rest ih =>
    intro e h
    rw [resolveImport] at h
    split at h
    · cases h
    · exact ih e h

theorem findTemplate_ne_outOfFuel (bucket : LocaleBucket) (chain : List String)
    (ids : List String)
    (hclosed : ∀ (t : String) (r2 : Resource),
      resolveImport bucket t chain = .ok r2 → r2.id ∈ ids) :
    ∀ (fuel : Nat) (v : List String) (r : Resource) (n : String),
      v.Nodup → (∀ x ∈ v, x ∈ ids) → r.id ∈ ids → ids.length + 1 ≤ fuel + v.length →
      findTemplate bucket chain fuel v r n ≠ .error .outOfFuel := by
  intro fuel
  induction fuel with
  | zero =>
    intro v r n hnd hsub hrid harith
    exfalso
    have hle : v.length ≤ ids.length := (List.Nodup.subperm hnd hsub).length_le
    omega
  | succ f ih =>
    intro v r n hnd hsub hrid harith
    rw [findTemplate]
    split
    · intro h
      cases h
    · rename_i hnotin
      split
      · intro h
        cases h
      · generalize r.imports = imps
        induction imps with
        | nil =>
          intro h
          cases h
        | cons tgt rest ihs =>
          rw [List.foldr_cons]
          cases hri : resolveImport bucket tgt chain with
          | error e =>
            simp only [hri]
            intro h
            injection h with h2
            rw [resolveImport_error bucket tgt chain e hri] at h2
            cases h2
          | ok r2 =>
            simp only [hri]
            have hnd2 : (v ++ [r.id]).Nodup := by
              rw [List.nodup_append]
              refine ⟨hnd, List.nodup_singleton _, ?_⟩
              intro a ha hb
              simp at hb
              subst hb
              exact hnotin ha
            have hsub2 : ∀ x ∈ v ++ [r.id], x ∈ ids := by
              intro x hx
              rcases List.mem_append.mp hx with h | h
              · exact hsub x h
              · simp at h
                subst h
                exact hrid
            have harith2 : ids.length + 1 ≤ f + (v ++ [r.id]).length := by
              rw [List.length_append]
              simp
              omega
            have hrec := ih (v ++ [r.id]) r2 n hnd2 hsub2 (hclosed tgt r2 hri) harith2
            cases hft : findTemplate bucket chain f (v ++ [r.id]) r2 n with
            | error e =>
              cases e with
              | templateNotFound m =>
                simp only [hft]
                exact ihs
              | outOfFuel =>
                exact absurd hft hrec
              | importNotFound m =>
                simp only [hft]
                intro h
                cases h
              | circularTemplateReference =>
                simp only [hft]
                intro h
                cases h
              | noGeneratorForLocale =>
                simp only [hft]
                intro h
                cases h
            | ok res =>
              simp only [hft]
              intro h
              cases h

theorem findTemplate_ok (bucket : LocaleBucket) (chain : List String) :
    ∀ (fuel : Nat) (v : List String) (r : Resource) (n : String) (r2 : Resource) (t : Template),
      findTemplate bucket chain fuel v r n = .ok (r2, t) →
      (r2 = r ∨ r2 ∈ allRes bucket) ∧ t ∈ r2.templates ∧ t.name = n := by
  intro fuel
  induction fuel with
  | zero =>
    intro v r n r2 t h
    cases h
  | succ f ih =>
    intro v r n r2 t h
    rw [findTemplate] at h
    split at h
    · cases h
    · split at h
      · rename_i t0 hfind
        injection h with h2
        have hr2 : r2 = r := congrArg Prod.fst h2.symm
        have ht0 : t = t0 := congrArg Prod.snd h2.symm
        subst hr2
        subst ht0
        have hmem := List.mem_of_find?_eq_some hfind
        have hname := List.find?_some hfind
        simp at hname
        exact ⟨Or.inl rfl, hmem, hname⟩
      · revert h
        generalize r.imports = imps
        induction imps with
        | nil =>
          intro h
          cases h
        | cons tgt rest ihs =>
          rw [List.foldr_cons]
          cases hri : resolveImport bucket tgt chain with
          | error e =>
            simp only [hri]
            intro h
            cases h
          | ok r3 =>
            simp only [hri]
            cases hft : findTemplate bucket chain f (v ++ [r.id]) r3 n with
            | error e =>
              cases e with
              | templateNotFound m =>
                simp only [hft]
                exact ihs
              | outOfFuel =>
                simp only [hft]
                intro h
                cases h
              | importNotFound m =>
                simp only [hft]
                intro h
                cases h
              | circularTemplateReference =>
                simp only [hft]
                intro h
                cases h
              | noGeneratorForLocale =>
                simp only [hft]
                intro h
                cases h
            | ok res =>
              simp only [hft]
              intro h
              injection h with h2
              subst h2
              obtain ⟨hor, hmem, hname⟩ := ih (v ++ [r.id]) r3 n r2 t hft
              refine ⟨?_, hmem, hname⟩
              rcases hor with hor | hor
              · subst hor
                exact Or.inr (resolveImport_mem bucket tgt chain r2 hri)
              · exact Or.inr hor

theorem pairs_mem_foldr :
    ∀ (l : List Resource) (r : Resource) (t : Template), r ∈ l → t ∈ r.templates →
      (r.id, t.name) ∈ l.foldr (fun r2 acc => pairsOf r2 ++ acc) [] := by
  intro l
  induction l with
  | nil =>
    intro r t hr
    simp at hr
  | cons q l ih =>
    intro r t hr ht
    show _ ∈ pairsOf q ++ _
    rcases List.mem_cons.mp hr with hr | hr
    · subst hr
      exact List.mem_append_left _ (List.mem_map_of_mem _ ht)
    · exact List.mem_append_right _ (ih r t hr ht)

theorem pairsU_mem (root : Resource) (bucket : LocaleBucket) (r : Resource) (t : Template)
    (hr : r = root ∨ r ∈ allRes bucket) (ht : t ∈ r.templates) :
    (r.id, t.name) ∈ pairsU root bucket := by
  rcases hr with hr | hr
  · subst hr
    exact List.mem_append_left _ (List.mem_map_of_mem _ ht)
  · exact List.mem_append_right _ (pairs_mem_foldr (allRes bucket) r t hr ht)

/-- The lookup fuel supplied by the evaluator is always sufficient. -/
theorem findTemplate_top_ne_outOfFuel (bucket : LocaleBucket) (chain : List String)
    (r : Resource) (n : String) :
    findTemplate bucket chain (ftFuel bucket) [] r n ≠ .error .outOfFuel := by
  apply findTemplate_ne_outOfFuel bucket chain (r.id :: (allRes bucket).map (fun r2 => r2.id))
  · intro t r2 hri
    exact List.mem_cons_of_mem _ (List.mem_map_of_mem _ (resolveImport_mem bucket t chain r2 hri))
  · exact List.nodup_nil
  · intro x hx
    simp at hx
  · exact List.mem_cons_self _ _
  · simp [ftFuel]

/-- Unfolding: evaluating the empty body succeeds with the empty string. -/
theorem evalSegs_nil (bucket : LocaleBucket) (chain : List String) (fuel : Nat)
    (vt : List (String × String)) (r : Resource) :
    evalSegs bucket chain (fuel + 1) vt r [] = .ok "" := rfl

/-- Unfolding: a literal segment prepends its text to the rest. -/
theorem evalSegs_cons_lit (bucket : LocaleBucket) (chain : List String) (fuel : Nat)
    (vt : List (String × String)) (r : Resource) (s : String) (rest : List Seg) :
    evalSegs bucket chain (fuel + 1) vt r (.lit s :: rest) =
      match evalSegs bucket chain (fuel + 1) vt r rest with
      | .ok s2 => .ok (s ++ s2)
      | e => e := rfl

/-- Unfolding: a call segment looks the template up, checks the visited
pairs, evaluates the found body, and prepends its rendering to the rest. -/
theorem evalSegs_cons_call (bucket : LocaleBucket) (chain : List String) (fuel : Nat)
    (vt : List (String × String)) (r : Resource) (n : String) (rest : List Seg) :
    evalSegs bucket chain (fuel + 1) vt r (.call n :: rest) =
      match findTemplate bucket chain (ftFuel bucket) [] r n with
      | .error e => .error e
      | .ok (r2, t) =>
        if (r2.id, t.name) ∈ vt then .error .circularTemplateReference
        else
          match evalSegs bucket chain fuel (vt ++ [(r2.id, t.name)]) r2 t.body with
          | .error e => .error e
          | .ok s1 =>
            match evalSegs bucket chain (fuel + 1) vt r rest with
            | .error e => .error e
            | .ok s2 => .ok (s1 ++ s2) := rfl

/-- Evaluation never exhausts its fuel: the visited-pair set bounds the call
depth by the total number of (resource, template) pairs in scope. -/
theorem evalSegs_ne_outOfFuel (bucket : LocaleBucket) (chain : List String) (root : Resource) :
    ∀ (fuel : Nat) (vt : List (String × String)) (r : Resource) (segs : List Seg),
      vt.Nodup → (∀ q ∈ vt, q ∈ pairsU root bucket) → (r = root ∨ r ∈ allRes bucket) →
      (pairsU root bucket).length + 1 ≤ fuel + vt.length →
      evalSegs bucket chain fuel vt r segs ≠ .error .outOfFuel := by
  intro fuel
  induction fuel with
  | zero =>
    intro vt r segs hnd hsub hok harith
    exfalso
    have hle : vt.length ≤ (pairsU root bucket).length :=
      (List.Nodup.subperm hnd hsub).length_le
    omega
  | succ f ih =>
    intro vt r segs hnd hsub hok harith
    induction segs with
    | nil =>
      intro h
      rw [evalSegs_nil] at h
      cases h
    | cons seg rest ihs =>
      cases seg with
      | lit s =>
        rw [evalSegs_cons_lit]
        split
        · intro h
          cases h
        · exact ihs
      | call n =>
        rw [evalSegs_cons_call]
        split
        · rename_i e hft
          intro h
          injection h with h2
          subst h2
          exact findTemplate_top_ne_outOfFuel bucket chain r n hft
        · rename_i r2 t hft
          have hftok := findTemplate_ok bucket chain (ftFuel bucket) [] r n r2 t hft
          have hok2 : r2 = root ∨ r2 ∈ allRes bucket := by
            rcases hftok.1 with h2 | h2
            · rw [h2]
              exact hok
            · exact Or.inr h2
          have hpair : (r2.id, t.name) ∈ pairsU root bucket :=
            pairsU_mem root bucket r2 t hok2 hftok.2.1
          split
          · intro h
            cases h
          · rename_i hpnotin
            have hnd2 : (vt ++ [(r2.id, t.name)]).Nodup := by
              rw [List.nodup_append]
              refine ⟨hnd, List.nodup_singleton _, ?_⟩
              intro a ha hb
              simp at hb
              subst hb
              exact hpnotin ha
            have hsub2 : ∀ q ∈ vt ++ [(r2.id, t.name)], q ∈ pairsU root bucket := by
              intro q hq
              rcases List.mem_append.mp hq with h2 | h2
              · exact hsub q h2
              · simp at h2
                subst h2
                exact hpair
            have harith2 : (pairsU root bucket).length + 1 ≤
                f + (vt ++ [(r2.id, t.name)]).length := by
              rw [List.length_append]
              simp
              omega
            have hrec := ih (vt ++ [(r2.id, t.name)]) r2 t.body hnd2 hsub2 hok2 harith2
            split
            · rename_i e hev
              intro h
              injection h with h2
              subst h2
              exact hrec hev
            · rename_i s1 hev
              split
              · rename_i e hacc
                intro h
                injection h with h2
                subst h2
                exact ihs hacc
              · intro h
                cases h

/-- Modelled from the spec (4.5): the resources reachable from a generator's
resource through declared imports resolved along the fixed fallback chain.
This is the scope import resolution can ever search. -/
inductive ReachesFrom (bucket : LocaleBucket) (chain : List String) (root : Resource) :
    Resource → Prop where
  | refl : ReachesFrom bucket chain root root
  | step (b c : Resource) (tgt : String) (h1 : ReachesFrom bucket chain root b)
      (h2 : tgt ∈ b.imports) (h3 : resolveImport bucket tgt chain = .ok c) :
      ReachesFrom bucket chain root c

/-- When a name is defined in no resource reachable through import
resolution along the chain, and the reachable resources' declared imports
all resolve, lookup can only report the template as not found (or run out
of fuel, which the fuel bound excludes). -/
theorem findTemplate_notDefined (bucket : LocaleBucket) (chain : List String)
    (root : Resource) (n : String)
    (hscope : ∀ r2, ReachesFrom bucket chain root r2 → ∀ t ∈ r2.templates, ¬ t.name = n)
    (himp : ∀ r2, ReachesFrom bucket chain root r2 → ∀ tgt ∈ r2.imports,
      ∃ r3, resolveImport bucket tgt chain = .ok r3) :
    ∀ (fuel : Nat) (v : List String) (r : Resource), ReachesFrom bucket chain root r →
      findTemplate bucket chain fuel v r n = .error (.templateNotFound n) ∨
      findTemplate bucket chain fuel v r n = .error .outOfFuel := by
  intro fuel
  induction fuel with
  | zero =>
    intro v r hok
    right
    rfl
  | succ f ih =>
    intro v r hok
    rw [findTemplate]
    split
    · left
      rfl
    · split
      · rename_i t0 hfind0
        exfalso
        have hmem := List.mem_of_find?_eq_some hfind0
        have hname := List.find?_some hfind0
        simp at hname
        exact hscope r hok t0 hmem hname
      · have hboth : ∀ tgt ∈ r.imports,
            ∃ r3, resolveImport bucket tgt chain = .ok r3 ∧
              ReachesFrom bucket chain root r3 := by
          intro tgt htgt
          obtain ⟨r3, hri⟩ := himp r hok tgt htgt
          exact ⟨r3, hri, ReachesFrom.step r r3 tgt hok htgt hri⟩
        revert hboth
        generalize r.imports = imps
        intro hboth
        induction imps with
        | nil =>
          left
          rfl
        | cons tgt rest ihs =>
          rw [List.foldr_cons]
          split
          · rename_i e hre
            exfalso
            obtain ⟨r2, hri, -⟩ := hboth tgt (List.mem_cons_self _ _)
            rw [hri] at hre
            cases hre
          · rename_i r2 hri
            have hreach2 : ReachesFrom bucket chain root r2 := by
              obtain ⟨r3, hri2, hreach3⟩ := hboth tgt (List.mem_cons_self _ _)
              rw [hri] at hri2
              injection hri2 with h4
              rw [h4]
              exact hreach3
            split
            · exact ihs (fun t ht => hboth t (List.mem_cons_of_mem _ ht))
            · rename_i hne
              rcases ih (v ++ [r.id]) r2 hreach2 with h2 | h2
              · exact (hne n h2).elim
              · exact Or.inr h2

/-- C5: a generate call naming a template that is defined neither in the
generator's own resource nor in any resource reachable through import
resolution across the generator's full fallback chain, over a scope whose
reachable declared imports all resolve, fails from that call with
templateNotFound and never returns a string. -/
theorem c5_missing_template (bucket : LocaleBucket) (root : Resource) (n : String)
    (hscope : ∀ r2, ReachesFrom bucket (resolve root.locale (bucketKeys bucket)) root r2 →
      ∀ t ∈ r2.templates, ¬ t.name = n)
    (himp : ∀ r2, ReachesFrom bucket (resolve root.locale (bucketKeys bucket)) root r2 →
      ∀ tgt ∈ r2.imports,
        ∃ r3, resolveImport bucket tgt (resolve root.locale (bucketKeys bucket)) = .ok r3) :
    srgGenerate bucket root [Seg.call n] = .error (.templateNotFound n) := by
  unfold srgGenerate genRun mkGen
  show evalSegs bucket (resolve root.locale (bucketKeys bucket))
    ((pairsU root bucket).length + 1 + 1) [] root [Seg.call n] = _
  rw [evalSegs_cons_call]
  rcases findTemplate_notDefined bucket (resolve root.locale (bucketKeys bucket)) root n
      hscope himp (ftFuel bucket) [] root ReachesFrom.refl with h2 | h2
  · rw [h2]
  · exact absurd h2 (findTemplate_top_ne_outOfFuel bucket _ root n)

/-- The resources reachable from a.en-US.lg under its fallback chain are
exactly itself and the en-US-resolved imports b.en-US.lg and c.en.lg; the
neutral b.lg, which defines greeting, is not among them. -/
theorem reaches_lgBucket_aEnUS (r2 : Resource)
    (h : ReachesFrom lgBucket (resolve resAEnUS.locale (bucketKeys lgBucket)) resAEnUS r2) :
    r2 = resAEnUS ∨ r2 = resBEnUS ∨ r2 = resCEn := by
  induction h with
  | refl => exact Or.inl rfl
  | step b c tgt h1 h2 h3 ih =>
    rcases ih with hb | hb | hb
    · rw [hb] at h2
      have htgt : tgt = "b" ∨ tgt = "c" := by simpa [resAEnUS] using h2
      rcases htgt with ht | ht
      · subst ht
        have hok : resolveImport lgBucket "b"
            (resolve resAEnUS.locale (bucketKeys lgBucket)) = .ok resBEnUS := by decide
        rw [h3] at hok
        injection hok with h4
        exact Or.inr (Or.inl h4)
      · subst ht
        have hok : resolveImport lgBucket "c"
            (resolve resAEnUS.locale (bucketKeys lgBucket)) = .ok resCEn := by decide
        rw [h3] at hok
        injection hok with h4
        exact Or.inr (Or.inr h4)
    · rw [hb] at h2
      simp [resBEnUS] at h2
    · rw [hb] at h2
      simp [resCEn] at h2

/-- Witness for C5 at the cited concrete scenario: greeting is defined in
the neutral b.lg but is shadowed under a.en-US.lg's fallback chain, where
the import of b resolves to b.en-US.lg, so the en-US generator fails with
templateNotFound for greeting. -/
theorem c5_witness :
    srgGenerate lgBucket resAEnUS [Seg.call "greeting"] =
      .error (.templateNotFound "greeting") := by
  apply c5_missing_template
  · intro r2 h
    rcases reaches_lgBucket_aEnUS r2 h with hb | hb | hb <;> subst hb <;> decide
  · intro r2 h tgt htgt
    rcases reaches_lgBucket_aEnUS r2 h with hb | hb | hb
    · subst hb
      have htgt2 : tgt = "b" ∨ tgt = "c" := by simpa [resAEnUS] using htgt
      rcases htgt2 with ht | ht
      · subst ht
        exact ⟨resBEnUS, by decide⟩
      · subst ht
        exact ⟨resCEn, by decide⟩
    · subst hb
      simp [resBEnUS] at htgt
    · subst hb
      simp [resCEn] at htgt

/-- A resource whose two templates invoke each other: template A calls B
and B calls A. -/
def cycRes : Resource := ⟨"cyc.lg", [⟨"A", [.call "B"]⟩, ⟨"B", [.call "A"]⟩], []⟩

/-- Resource p.lg whose template calls into q.lg. -/
def cycP : Resource := ⟨"p.lg", [⟨"tA", [.call "tB"]⟩], ["q"]⟩

/-- Resource q.lg whose template calls back into p.lg. -/
def cycQ : Resource := ⟨"q.lg", [⟨"tB", [.call "tA"]⟩], ["p"]⟩

/-- C9: circular template chains are detected: the A-calls-B-calls-A
resource fails with circularTemplateReference, as does a two-resource cycle
through imports; and evaluation always terminates with a real result, never
by exhausting its internal fuel, for every bucket, resource and body. -/
theorem c9_circular_detection :
    srgGenerate [] cycRes [Seg.call "A"] = .error .circularTemplateReference ∧
    srgGenerate (groupByLocale [""] [cycP, cycQ]) cycP [Seg.call "tA"] =
      .error .circularTemplateReference ∧
    ∀ (bucket : LocaleBucket) (r : Resource) (segs : List Seg),
      srgGenerate bucket r segs ≠ .error .outOfFuel := by
  refine ⟨by decide, by decide, ?_⟩
  intro bucket r segs
  unfold srgGenerate genRun mkGen
  apply evalSegs_ne_outOfFuel bucket _ r (evalFuel bucket r) [] r segs List.nodup_nil
    (by simp) (Or.inl rfl)
  simp [evalFuel]

/-- Witness for C9's universal part at a concrete input. -/
theorem c9_witness : srgGenerate [] cycRes [Seg.call "A"] ≠ .error .outOfFuel :=
  c9_circular_detection.2.2 [] cycRes [Seg.call "A"]

/-! ## Shared state and the resource-keyed generator (spec 4.8, 5, 7) -/

/-- Modelled from the spec (4.8): resolve the resource for a logical base
name at a requested locale, walking the fallback chain over the bucket
keys. -/
def resolveResource (bucket : LocaleBucket) (base : String) (locale : String) : Option Resource :=
  (resolve locale (bucketKeys bucket)).findSome?
    (fun l => (bucketGet bucket l).find? (fun r => r.baseName == base))

/-- The shared state of the generator facades: the bucket snapshot, the
multi-locale bindings, and the resource-keyed generator cache (the only
component a generate call may write). -/
structure GenState where
  bucket : LocaleBucket
  bindings : List (String × SingleGen)
  cache : List (String × SingleGen)
  deriving DecidableEq, Repr

/-- Reuse the cached generator for a resolved resource's id or build one
and cache it, then evaluate. -/
def rkStep (s : GenState) (r : Resource) (segs : List Seg) :
    Except LGError String × GenState :=
  match s.cache.find? (fun q => q.1 == r.id) with
  | some q => (genRun s.bucket q.2 segs, s)
  | none =>
    (genRun s.bucket (mkGen s.bucket r) segs,
      ⟨s.bucket, s.bindings, s.cache ++ [(r.id, mkGen s.bucket r)]⟩)

/-- Modelled from the spec (4.8, ResourceMultiLanguageGenerator is exercised
but not defined in the checkout): resolve the resource for the base name at
the requested locale, reuse the cached generator for that resource id or
build one and cache it, then evaluate.  Only the cache component of the
state ever changes. -/
def rkGenerate (s : GenState) (base locale : String) (segs : List Seg) :
    Except LGError String × GenState :=
  match resolveResource s.bucket base locale with
  | none => (.error .noGeneratorForLocale, s)
  | some r => rkStep s r segs

/-- Well-formedness of the shared state: every cached entry is exactly the
generator the current bucket builds for some bucket resource, keyed by its
id, and bucket resource ids are unambiguous. -/
def WfState (s : GenState) : Prop :=
  (∀ q ∈ s.cache, ∃ r, r ∈ allRes s.bucket ∧ q.1 = r.id ∧ q.2 = mkGen s.bucket r) ∧
  (∀ r1 ∈ allRes s.bucket, ∀ r2 ∈ allRes s.bucket, r1.id = r2.id → r1 = r2)

theorem findSome?_inv {α β : Type} (f : α → Option β) :
    ∀ (l : List α) (b : β), l.findSome? f = some b → ∃ a ∈ l, f a = some b := by
  intro l
  induction l with
  | nil =>
    intro b h
    rw [List.findSome?_nil] at h
    cases h
  | cons x xs ih =>
    intro b h
    rw [List.findSome?_cons] at h
    cases hfx : f x with
    | some v =>
      rw [hfx] at h
      injection h with h2
      subst h2
      exact ⟨x, List.mem_cons_self _ _, hfx⟩
    | none =>
      rw [hfx] at h
      obtain ⟨a, ha, hfa⟩ := ih b h
      exact ⟨a, List.mem_cons_of_mem _ ha, hfa⟩

theorem resolveResource_mem (bucket : LocaleBucket) (base locale : String) (r : Resource)
    (h : resolveResource bucket base locale = some r) : r ∈ allRes bucket := by
  obtain ⟨l, -, hfind⟩ := findSome?_inv _ _ r h
  exact bucketGet_sub_allRes bucket l r (List.mem_of_find?_eq_some hfind)

theorem rkGenerate_none (s : GenState) (base locale : String) (segs : List Seg)
    (h : resolveResource s.bucket base locale = none) :
    rkGenerate s base locale segs = (.error .noGeneratorForLocale, s) := by
  unfold rkGenerate
  rw [h]

theorem rkGenerate_hit (s : GenState) (base locale : String) (segs : List Seg)
    (r : Resource) (q : String × SingleGen)
    (hres : resolveResource s.bucket base locale = some r)
    (hq : s.cache.find? (fun q2 => q2.1 == r.id) = some q) :
    rkGenerate s base locale segs = (genRun s.bucket q.2 segs, s) := by
  unfold rkGenerate
  rw [hres]
  show rkStep s r segs = _
  unfold rkStep
  rw [hq]

theorem rkGenerate_miss (s : GenState) (base locale : String) (segs : List Seg)
    (r : Resource)
    (hres : resolveResource s.bucket base locale = some r)
    (hq : s.cache.find? (fun q2 => q2.1 == r.id) = none) :
    rkGenerate s base locale segs = (genRun s.bucket (mkGen s.bucket r) segs,
      ⟨s.bucket, s.bindings, s.cache ++ [(r.id, mkGen s.bucket r)]⟩) := by
  unfold rkGenerate
  rw [hres]
  show rkStep s r segs = _
  unfold rkStep
  rw [hq]

/-- C8: a generate call on the resource-keyed generator that fails with a
generate-time error leaves the bucket snapshot and the locale-to-generator
bindings exactly as they were, keeps the shared state well formed, and every
subsequent generate call returns exactly the result it would have returned
had the failed call never happened. -/
theorem c8_error_preserves_state (s : GenState) (base locale : String) (segs : List Seg)
    (res : Except LGError String) (s2 : GenState) (e : LGError)
    (hwf : WfState s)
    (hrun : rkGenerate s base locale segs = (res, s2))
    (herr : res = .error e) :
    s2.bucket = s.bucket ∧ s2.bindings = s.bindings ∧ WfState s2 ∧
    ∀ (base2 locale2 : String) (segs2 : List Seg),
      (rkGenerate s2 base2 locale2 segs2).1 = (rkGenerate s base2 locale2 segs2).1 := by
  cases hres : resolveResource s.bucket base locale with
  | none =>
    rw [rkGenerate_none s base locale segs hres] at hrun
    injection hrun with h1 h2
    subst h2
    exact ⟨rfl, rfl, hwf, fun _ _ _ => rfl⟩
  | some r =>
    cases hq : s.cache.find? (fun q2 => q2.1 == r.id) with
    | some q =>
      rw [rkGenerate_hit s base locale segs r q hres hq] at hrun
      injection hrun with h1 h2
      subst h2
      exact ⟨rfl, rfl, hwf, fun _ _ _ => rfl⟩
    | none =>
      rw [rkGenerate_miss s base locale segs r hres hq] at hrun
      injection hrun with h1 h2
      subst h2
      refine ⟨rfl, rfl, ⟨?_, hwf.2⟩, ?_⟩
      · intro q hq2
        rcases List.mem_append.mp hq2 with h | h
        · exact hwf.1 q h
        · simp at h
          exact ⟨r, resolveResource_mem s.bucket base locale r hres, by rw [h], by rw [h]⟩
      · intro base2 locale2 segs2
        cases hres2 : resolveResource s.bucket base2 locale2 with
        | none =>
          rw [rkGenerate_none s base2 locale2 segs2 hres2,
            rkGenerate_none ⟨s.bucket, s.bindings, s.cache ++ [(r.id, mkGen s.bucket r)]⟩
              base2 locale2 segs2 hres2]
        | some r2 =>
          cases hq2 : s.cache.find? (fun q2 => q2.1 == r2.id) with
          | some q2 =>
            have hq2b : (s.cache ++ [(r.id, mkGen s.bucket r)]).find?
                (fun q3 => q3.1 == r2.id) = some q2 := by
              rw [List.find?_append, hq2]
              rfl
            rw [rkGenerate_hit s base2 locale2 segs2 r2 q2 hres2 hq2,
              rkGenerate_hit ⟨s.bucket, s.bindings, s.cache ++ [(r.id, mkGen s.bucket r)]⟩
                base2 locale2 segs2 r2 q2 hres2 hq2b]
          | none =>
            by_cases hid : (r.id == r2.id) = true
            · have hq2b : (s.cache ++ [(r.id, mkGen s.bucket r)]).find?
                  (fun q3 => q3.1 == r2.id) = some (r.id, mkGen s.bucket r) := by
                rw [List.find?_append, hq2]
                show ([(r.id, mkGen s.bucket r)].find? (fun q3 => q3.1 == r2.id)) = _
                have hpr : ((r.id, mkGen s.bucket r).1 == r2.id) = true := by simpa using hid
                rw [List.find?_cons, hpr]
              rw [rkGenerate_miss s base2 locale2 segs2 r2 hres2 hq2,
                rkGenerate_hit ⟨s.bucket, s.bindings, s.cache ++ [(r.id, mkGen s.bucket r)]⟩
                  base2 locale2 segs2 r2 (r.id, mkGen s.bucket r) hres2 hq2b]
              show genRun s.bucket (mkGen s.bucket r) segs2 =
                genRun s.bucket (mkGen s.bucket r2) segs2
              have hrr : r = r2 :=
                hwf.2 r (resolveResource_mem s.bucket base locale r hres)
                  r2 (resolveResource_mem s.bucket base2 locale2 r2 hres2)
                  (by simpa using hid)
              rw [hrr]
            · have hq2b : (s.cache ++ [(r.id, mkGen s.bucket r)]).find?
                  (fun q3 => q3.1 == r2.id) = none := by
                rw [List.find?_append, hq2]
                show ([(r.id, mkGen s.bucket r)].find? (fun q3 => q3.1 == r2.id)) = _
                have hpr : ((r.id, mkGen s.bucket r).1 == r2.id) = false := by simpa using hid
                rw [List.find?_cons, hpr]
                rfl
              rw [rkGenerate_miss s base2 locale2 segs2 r2 hres2 hq2,
                rkGenerate_miss ⟨s.bucket, s.bindings, s.cache ++ [(r.id, mkGen s.bucket r)]⟩
                  base2 locale2 segs2 r2 hres2 hq2b]

/-- Witness for C8 at a concrete input: a call over the empty state fails
with noGeneratorForLocale and changes nothing. -/
theorem c8_witness :
    GenState.bucket ⟨[], [], []⟩ = GenState.bucket ⟨[], [], []⟩ ∧
    GenState.bindings ⟨[], [], []⟩ = GenState.bindings ⟨[], [], []⟩ ∧
    WfState ⟨[], [], []⟩ ∧
    ∀ (base2 locale2 : String) (segs2 : List Seg),
      (rkGenerate ⟨[], [], []⟩ base2 locale2 segs2).1 =
        (rkGenerate ⟨[], [], []⟩ base2 locale2 segs2).1 :=
  c8_error_preserves_state ⟨[], [], []⟩ "a" "en" [] (.error .noGeneratorForLocale)
    ⟨[], [], []⟩ .noGeneratorForLocale
    ⟨by intro q hq; simp at hq, by intro r1 h1; simp [allRes] at h1⟩
    (by decide) rfl

end LG
